import Mathlib

/-!
# Verification of the ABI contract/method descriptor core

A shallow embedding of `src/algosdk/abi/method.py` and
`src/algosdk/abi/contract.py` (the ABI `Method`/`Argument`/`Returns`/
`Contract`/`NetworkInfo` descriptor model, its structural diff engine,
equivalence checker, signature parser and selector computer), together
with theorems settling the spec claims.

Modelling conventions, stated once here:

* Python values flowing through generic code (dictified descriptors and
  diff results) are embedded as the inductive `Val`.  Python `None` is
  `Val.none`; Python 2-tuples are `Val.pair`; Python dicts are `Val.dict`
  over association lists in insertion order.
* The external ABI value type system (`abi.ABIType.from_string`,
  `abi.is_abi_transaction_type`, `abi.is_abi_reference_type`) is not part
  of the two source files.  Per the spec it is consumed "only as an opaque
  type string with equality", so a type is embedded as its canonical
  `String` (`str(t)` is the identity) and the transaction-kind marker test
  is modelled from the spec.
* Python dict equality ignores insertion order; `dictPyEq` embeds it for
  the `networks` maps.  Python set iteration order is unspecified, so the
  key groups produced by `_ddiffer` are emitted in sorted order; no claim
  depends on the entry order of that dict, only on `None`-ness.
-/

/-- Embedding of the Python values manipulated generically by the diff
engine and the dictify/undictify serialization: `None`, strings, ints,
lists, (insertion-ordered) string-keyed dicts and 2-tuples. -/
inductive Val where
  | none : Val
  | str : String → Val
  | int : Int → Val
  | list : List Val → Val
  | dict : List (String × Val) → Val
  | pair : Val → Val → Val

mutual

/-- Boolean equality on `Val` (Python `==` on the embedded values). -/
def Val.beq : Val → Val → Bool
  | .none, .none => true
  | .str a, .str b => a == b
  | .int a, .int b => a == b
  | .list xs, .list ys => Val.beqList xs ys
  | .dict xs, .dict ys => Val.beqEntries xs ys
  | .pair a b, .pair c d => Val.beq a c && Val.beq b d
  | _, _ => false

/-- Elementwise `Val.beq` on lists. -/
def Val.beqList : List Val → List Val → Bool
  | [], [] => true
  | x :: xs, y :: ys => Val.beq x y && Val.beqList xs ys
  | _, _ => false

/-- Elementwise `Val.beq` on dict entries. -/
def Val.beqEntries : List (String × Val) → List (String × Val) → Bool
  | [], [] => true
  | (k1, v1) :: xs, (k2, v2) :: ys =>
    k1 == k2 && Val.beq v1 v2 && Val.beqEntries xs ys
  | _, _ => false

end

mutual

theorem Val.beq_iff : ∀ x y : Val, Val.beq x y = true ↔ x = y
  | .none, .none => by simp [Val.beq]
  | .none, .str _ | .none, .int _ | .none, .list _ | .none, .dict _
  | .none, .pair _ _ => by simp [Val.beq]
  | .str _, .none | .str _, .int _ | .str _, .list _ | .str _, .dict _
  | .str _, .pair _ _ => by simp [Val.beq]
  | .str a, .str b => by simp [Val.beq]
  | .int _, .none | .int _, .str _ | .int _, .list _ | .int _, .dict _
  | .int _, .pair _ _ => by simp [Val.beq]
  | .int a, .int b => by simp [Val.beq]
  | .list _, .none | .list _, .str _ | .list _, .int _ | .list _, .dict _
  | .list _, .pair _ _ => by simp [Val.beq]
  | .list xs, .list ys => by
    simp only [Val.beq, Val.beqList_iff xs ys, Val.list.injEq]
  | .dict _, .none | .dict _, .str _ | .dict _, .int _ | .dict _, .list _
  | .dict _, .pair _ _ => by simp [Val.beq]
  | .dict xs, .dict ys => by
    simp only [Val.beq, Val.beqEntries_iff xs ys, Val.dict.injEq]
  | .pair _ _, .none | .pair _ _, .str _ | .pair _ _, .int _
  | .pair _ _, .list _ | .pair _ _, .dict _ => by simp [Val.beq]
  | .pair a b, .pair c d => by
    simp only [Val.beq, Bool.and_eq_true, Val.beq_iff a c, Val.beq_iff b d,
      Val.pair.injEq]

theorem Val.beqList_iff : ∀ xs ys : List Val, Val.beqList xs ys = true ↔ xs = ys
  | [], [] => by simp [Val.beqList]
  | [], _ :: _ => by simp [Val.beqList]
  | _ :: _, [] => by simp [Val.beqList]
  | x :: xs, y :: ys => by
    simp only [Val.beqList, Bool.and_eq_true, Val.beq_iff x y,
      Val.beqList_iff xs ys, List.cons.injEq]

theorem Val.beqEntries_iff :
    ∀ xs ys : List (String × Val), Val.beqEntries xs ys = true ↔ xs = ys
  | [], [] => by simp [Val.beqEntries]
  | [], _ :: _ => by simp [Val.beqEntries]
  | _ :: _, [] => by simp [Val.beqEntries]
  | (k1, v1) :: xs, (k2, v2) :: ys => by
    simp only [Val.beqEntries, Bool.and_eq_true, Val.beq_iff v1 v2,
      Val.beqEntries_iff xs ys, List.cons.injEq, Prod.mk.injEq,
      beq_iff_eq, and_assoc]

end

instance : BEq Val := ⟨Val.beq⟩

instance : DecidableEq Val := fun x y =>
  decidable_of_iff (Val.beq x y = true) (Val.beq_iff x y)

/-- Python truthiness of an embedded value: `None` is falsy; strings,
lists and dicts are truthy iff non-empty; an int is truthy iff nonzero;
a 2-tuple is always truthy. -/
def Val.truthy : Val → Bool
  | .none => false
  | .str s => decide (s ≠ "")
  | .int n => decide (n ≠ 0)
  | .list xs => decide (xs ≠ [])
  | .dict es => decide (es ≠ [])
  | .pair _ _ => true

/-- Is the value a Python `str`?  (`isinstance(v, str)`). -/
def Val.isStr : Val → Bool
  | .str _ => true
  | _ => false

/-- `d[k]` on a dict value.  Every lookup performed by the source happens
on a dict that carries the key, so the missing-key (`KeyError`) case is
mapped to `Val.none`. -/
def dGet (v : Val) (k : String) : Val :=
  match v with
  | .dict es => (es.lookup k).getD Val.none
  | _ => Val.none

/-- Truthiness of an optional Python string (`if self.name:` style tests):
`None` and the empty string are falsy. -/
def optStrTruthy : Option String → Bool
  | Option.none => false
  | some s => decide (s ≠ "")

/-- Embed an optional Python string as a `Val`. -/
def optStrVal : Option String → Val
  | Option.none => Val.none
  | some s => Val.str s

/-- `method.py` `_differ(x, y, dont_erase)`: with `dont_erase` the left
value is always emitted; otherwise `None` when equal, else the pair.
At every call site of the source the operands are scalars (strings,
ints, `None`), on which `_dict_if_can` is the identity, so the
`dictify`-probing is dropped here. -/
def _differ (x y : Val) (dont_erase : Bool) : Val :=
  if dont_erase then x else if Val.beq x y then Val.none else Val.pair x y

/-- Modelled from the spec: the transaction-kind markers of the external
ABI type system (`abi.is_abi_transaction_type`, which is not part of the
two source files).  An argument with such a type "represents one
additional method call consumed at invocation time". -/
def is_abi_transaction_type (s : String) : Bool :=
  decide (s = "txn" ∨ s = "pay" ∨ s = "keyreg" ∨ s = "acfg" ∨ s = "axfer" ∨
    s = "afrz" ∨ s = "appl")

/-- `method.py` `Argument`: an ABI method argument.  The `type` field is
the opaque canonical type string (see the header: `str(ABIType)` is
modelled as the identity on the canonical string). -/
structure Argument where
  type : String
  name : Option String
  desc : Option String
deriving DecidableEq, Repr

/-- `method.py` `Returns`: a method's return description; `type` is
`"void"` (the `VOID` sentinel) or a canonical type string. -/
structure Returns where
  type : String
  desc : Option String
deriving DecidableEq, Repr

/-- `method.py` `Method`.  `txn_calls` is stored as `__init__` computes
it; `Method.make` below is the embedding of `__init__`. -/
structure Method where
  name : String
  args : List Argument
  returns : Returns
  desc : Option String
  txn_calls : Nat
  canonical : Bool
deriving DecidableEq, Repr

instance : Inhabited Method := ⟨⟨"", [], ⟨"void", Option.none⟩, Option.none, 1, false⟩⟩

/-- `Method.__init__`: stores the fields and derives `txn_calls` as 1
plus the number of transaction-typed arguments. -/
def Method.make (name : String) (args : List Argument) (returns : Returns)
    (desc : Option String) (canonical : Bool) : Method :=
  ⟨name, args, returns, desc,
    1 + args.countP (fun a => is_abi_transaction_type a.type), canonical⟩

/-- The `txn_calls` invariant of the data model: the stored count is the
one `__init__` derives from `args`.  Every Python-constructible `Method`
satisfies it. -/
def Method.wf (m : Method) : Prop :=
  m.txn_calls = 1 + m.args.countP (fun a => is_abi_transaction_type a.type)

instance (m : Method) : Decidable m.wf := by
  unfold Method.wf; infer_instance

/-- `Method.canonicalized`: a deep copy with the `canonical` flag set. -/
def Method.canonicalized (m : Method) : Method :=
  { m with canonical := true }

/-- `Method.__eq__`: compares `name`, `args`, `returns`, `desc` and
`txn_calls` — the data-model fields; the presentational `canonical` flag
is not compared. -/
def Method.pyEq (m o : Method) : Bool :=
  decide (m.name = o.name ∧ m.args = o.args ∧ m.returns = o.returns ∧
    m.desc = o.desc ∧ m.txn_calls = o.txn_calls)

/-- Python `==` on two lists of `Method` (elementwise `Method.__eq__`). -/
def methodsPyEq : List Method → List Method → Bool
  | [], [] => true
  | x :: xs, y :: ys => Method.pyEq x y && methodsPyEq xs ys
  | _, _ => false

/-- `Argument.dictify`: always emits `type`; emits `name`/`desc` only
when truthy (so `None` and the empty string are both omitted). -/
def Argument.dictify (a : Argument) : Val :=
  Val.dict ([("type", Val.str a.type)] ++
    (if optStrTruthy a.name then [("name", optStrVal a.name)] else []) ++
    (if optStrTruthy a.desc then [("desc", optStrVal a.desc)] else []))

/-- `Returns.dictify`: emits `type`, and `desc` only when truthy. -/
def Returns.dictify (r : Returns) : Val :=
  Val.dict ([("type", Val.str r.type)] ++
    (if optStrTruthy r.desc then [("desc", optStrVal r.desc)] else []))

/-- `Method.dictify`: `name`, `args`, `returns`, then `desc` when truthy;
in canonical mode the keys are re-assembled in the order `name`, `desc`
(when present), `args`, `returns`. -/
def Method.dictify (m : Method) : Val :=
  let descEntry : List (String × Val) :=
    if optStrTruthy m.desc then [("desc", optStrVal m.desc)] else []
  let argsVal := Val.list (m.args.map Argument.dictify)
  if m.canonical then
    Val.dict ([("name", Val.str m.name)] ++ descEntry ++
      [("args", argsVal), ("returns", m.returns.dictify)])
  else
    Val.dict ([("name", Val.str m.name), ("args", argsVal),
      ("returns", m.returns.dictify)] ++ descEntry)

/-- `Argument.undictify` composed with the `Argument` constructor.  The
constructor validates the type against the external type system and
stores it; under the opaque-string model that is the identity.  A shape
that the typed model cannot represent (missing `"type"` key, non-string
field) is mapped to `Option.none`. -/
def Argument.undictify (v : Val) : Option Argument :=
  match dGet v "type" with
  | Val.str t =>
    let nm := match dGet v "name" with | Val.str s => some s | _ => Option.none
    let ds := match dGet v "desc" with | Val.str s => some s | _ => Option.none
    some ⟨t, nm, ds⟩
  | _ => Option.none

/-- `Returns.undictify` composed with the `Returns` constructor. -/
def Returns.undictify (v : Val) : Option Returns :=
  match dGet v "type" with
  | Val.str t =>
    let ds := match dGet v "desc" with | Val.str s => some s | _ => Option.none
    some ⟨t, ds⟩
  | _ => Option.none

/-- The list comprehension `[Argument.undictify(arg) for arg in d["args"]]`
(the first failing element aborts). -/
def undictifyArgs : List Val → Option (List Argument)
  | [] => some []
  | v :: vs =>
    match Argument.undictify v, undictifyArgs vs with
    | some a, some rest => some (a :: rest)
    | _, _ => Option.none

/-- `Method.undictify`: reads `name`, `args`, `returns` and the optional
`desc`, then calls the constructor (`Method.make`), which recomputes
`txn_calls` and leaves `canonical` off. -/
def Method.undictify (v : Val) : Option Method :=
  match dGet v "name", dGet v "args" with
  | Val.str n, Val.list argVals =>
    match undictifyArgs argVals, Returns.undictify (dGet v "returns") with
    | some args, some ret =>
      let ds := match dGet v "desc" with | Val.str s => some s | _ => Option.none
      some (Method.make n args ret ds false)
    | _, _ => Option.none
  | _, _ => Option.none

/-- `Argument.__xor__`: `None` when equal, else a per-field dict. -/
def Argument.xor (a b : Argument) : Val :=
  if a = b then Val.none
  else Val.dict [
    ("type", _differ (Val.str a.type) (Val.str b.type) false),
    ("name", _differ (optStrVal a.name) (optStrVal b.name) false),
    ("desc", _differ (optStrVal a.desc) (optStrVal b.desc) false)]

/-- `Returns.__xor__`: `None` when equal, else a per-field dict. -/
def Returns.xor (a b : Returns) : Val :=
  if a = b then Val.none
  else Val.dict [
    ("type", _differ (Val.str a.type) (Val.str b.type) false),
    ("desc", _differ (optStrVal a.desc) (optStrVal b.desc) false)]

/-- `method.py` `_ldiffer` at its one call site (`args` lists): `None`
for equal lists, a position-aligned list of element diffs for unequal
lists of equal length, else the wholesale pair of both dictified lists. -/
def _ldiffer (xs ys : List Argument) : Val :=
  if xs = ys then Val.none
  else if xs.length = ys.length then
    Val.list ((xs.zip ys).map fun p => Argument.xor p.1 p.2)
  else
    Val.pair (Val.list (xs.map Argument.dictify))
      (Val.list (ys.map Argument.dictify))

/-- `Method.__xor__`: `None` when `__eq__`, else the five-field dict;
the `name` field is diffed with `dont_erase=True`. -/
def Method.xor (m o : Method) : Val :=
  if Method.pyEq m o then Val.none
  else Val.dict [
    ("name", _differ (Val.str m.name) (Val.str o.name) true),
    ("desc", _differ (optStrVal m.desc) (optStrVal o.desc) false),
    ("args", _ldiffer m.args o.args),
    ("returns", Returns.xor m.returns o.returns),
    ("txn_calls", _differ (Val.int m.txn_calls) (Val.int o.txn_calls) false)]

/-- `Argument.equivalent`: the canonical type strings agree; name and
desc are ignored. -/
def Argument.equivalent (a b : Argument) : Bool :=
  decide (a.type = b.type)

/-- `Method.equivalent`: trivially true on a `None` diff; false on any
`returns` or `txn_calls` change or a non-string `name` entry or a length
mismatch; otherwise pairwise `Argument.equivalent` by position. -/
def Method.equivalent (m o : Method) : Bool :=
  let diff := Method.xor m o
  if diff.truthy = false then true
  else if (dGet diff "returns").truthy || (dGet diff "txn_calls").truthy then
    false
  else if (dGet diff "name").isStr = false then false
  else if m.args.length ≠ o.args.length then false
  else ((m.args.zip o.args).any fun p => Argument.equivalent p.1 p.2 = false)
    = false

/-- Python `",".join(xs)`: the empty string on no elements, else the
first element with `"," ++ element` folded over the rest. -/
def joinComma : List String → String
  | [] => ""
  | x :: rest => rest.foldl (fun acc t => acc ++ "," ++ t) x

/-- `Method.get_signature`: `name(t1,...,tn)ret` with the argument type
strings comma-joined. -/
def Method.get_signature (m : Method) : String :=
  m.name ++ "(" ++ joinComma (m.args.map fun a => a.type) ++
    ")" ++ m.returns.type

/-- Bytes of the UTF-8 encoding of a string, as naturals. -/
def utf8Bytes (s : String) : List Nat :=
  s.toUTF8.toList.map fun b => b.toNat

/-- `Method.get_selector`, parametrized by the external 256-bit hash
primitive (`SHA512.new(truncate="256")`), which the spec treats as an
opaque function from bytes to bytes: the first 4 bytes of the digest of
the UTF-8 signature. -/
def Method.get_selector (hash256 : List Nat → List Nat) (m : Method) :
    List Nat :=
  (hash256 (utf8Bytes m.get_signature)).take 4

/-- The loop of `Method._parse_string`: scan left to right keeping a
stack of the indices of unmatched opening parens; on `)` with an empty
stack stop (malformed); on the `)` that empties the stack return the
three slices `s[:l]`, `s[l+1:i]`, `s[i+1:]`; falling off the end is
malformed.  `full` is the whole string, `i` the index of the head of the
remaining characters. -/
def parseLoop (full : List Char) : List Char → Nat → List Nat →
    Option (List String)
  | [], _, _ => Option.none
  | c :: rest, i, stack =>
    if c = '(' then parseLoop full rest (i + 1) (i :: stack)
    else if c = ')' then
      match stack with
      | [] => Option.none
      | l :: stack2 =>
        if stack2 = [] then
          some [String.mk (full.take l),
                String.mk ((full.drop (l + 1)).take (i - (l + 1))),
                String.mk (full.drop (i + 1))]
        else parseLoop full rest (i + 1) stack2
    else parseLoop full rest (i + 1) stack

/-- `Method._parse_string`: `Option.none` embeds the
`ABIEncodingError` for mismatched parentheses. -/
def Method.parse_string (s : String) : Option (List String) :=
  parseLoop s.data s.data 0 []

/-- The claim's reading of the parser, as a second definition: the same
left-to-right scan but carrying only the depth of unmatched `(` and the
index of the opening paren of the outermost group, instead of the full
index stack. -/
def parseSpecLoop (full : List Char) : List Char → Nat → Nat → Nat →
    Option (List String)
  | [], _, _, _ => Option.none
  | c :: rest, i, depth, first =>
    if c = '(' then
      parseSpecLoop full rest (i + 1) (depth + 1)
        (if depth = 0 then i else first)
    else if c = ')' then
      if depth = 0 then Option.none
      else if depth = 1 then
        some [String.mk (full.take first),
              String.mk ((full.drop (first + 1)).take (i - (first + 1))),
              String.mk (full.drop (i + 1))]
      else parseSpecLoop full rest (i + 1) (depth - 1) first
    else parseSpecLoop full rest (i + 1) depth first

/-- Depth-counting formulation of the signature parser (spec reading). -/
def parseStringSpec (s : String) : Option (List String) :=
  parseSpecLoop s.data s.data 0 0 0

/-- Splitting a comma-joined type list on commas at bracket depth 0,
accumulating the current token in reverse in `acc`. -/
def splitTopLevel : List Char → Nat → List Char → Option (List String)
  | [], 0, acc => some [String.mk acc.reverse]
  | [], _ + 1, _ => Option.none
  | c :: rest, depth, acc =>
    if c = ',' && depth = 0 then
      (splitTopLevel rest 0 []).map fun ts => String.mk acc.reverse :: ts
    else if c = '(' || c = '[' then splitTopLevel rest (depth + 1) (c :: acc)
    else if c = ')' || c = ']' then
      match depth with
      | 0 => Option.none
      | d + 1 => splitTopLevel rest d (c :: acc)
    else splitTopLevel rest depth (c :: acc)

/-- Modelled from the spec: the external tuple-type parser
(`abi.TupleType._parse_tuple`, not part of the two source files), which
splits the comma-joined argument-type list into individual type tokens
at top-level commas; the empty string yields no tokens. -/
def parseTupleSpec (s : String) : Option (List String) :=
  if s = "" then some [] else splitTopLevel s.data 0 []

/-- `Method.from_signature`: tokenize, build an `Argument` per parsed
type token, a `Returns` from the tail token, and construct the `Method`
(which derives `txn_calls`). -/
def Method.from_signature (s : String) : Option Method :=
  match Method.parse_string s with
  | some [t0, t1, t2] =>
    match parseTupleSpec t1 with
    | some ts =>
      some (Method.make t0 (ts.map fun t => ⟨t, Option.none, Option.none⟩)
        ⟨t2, Option.none⟩ Option.none false)
    | Option.none => Option.none
  | _ => Option.none

/-- The two `KeyError`s of `get_method_by_name`, kept structured: the
ambiguous case carries the match count and the signatures of all
matching methods (the source joins them into the message). -/
inductive MethodLookupError where
  | ambiguous : Nat → List String → MethodLookupError
  | notFound : String → MethodLookupError
deriving DecidableEq, Repr

/-- `method.py` `get_method_by_name`: filter by name; more than one
match is ambiguous, zero is not found, else the unique match. -/
def get_method_by_name (methods : List Method) (name : String) :
    Except MethodLookupError Method :=
  let filtered := methods.filter fun m => decide (m.name = name)
  if filtered.length > 1 then
    Except.error (MethodLookupError.ambiguous filtered.length
      (filtered.map Method.get_signature))
  else if filtered.length = 0 then
    Except.error (MethodLookupError.notFound name)
  else Except.ok (filtered.getD 0 default)

/-- Python `<` on strings: lexicographic comparison by code point. -/
def charListLt : List Char → List Char → Bool
  | [], [] => false
  | [], _ :: _ => true
  | _ :: _, [] => false
  | c :: cs, d :: ds =>
    if c.toNat < d.toNat then true
    else if d.toNat < c.toNat then false
    else charListLt cs ds

/-- Python `<` on strings. -/
def strLtb (a b : String) : Bool := charListLt a.data b.data

/-- Stable insertion into a `strLtb`-sorted list, keeping the inserted
element before elements comparing equal. -/
def insertStr (x : String) : List String → List String
  | [] => [x]
  | y :: ys => if strLtb y x then y :: insertStr x ys else x :: y :: ys

/-- Python `sorted` on a list of strings (stable, by `strLtb`). -/
def sortStrings (xs : List String) : List String := xs.foldr insertStr []

/-- Stable insertion of a `Method` into a list sorted by name. -/
def insertMethod (x : Method) : List Method → List Method
  | [] => [x]
  | y :: ys =>
    if strLtb y.name x.name then y :: insertMethod x ys else x :: y :: ys

/-- Python `sorted(methods, key=lambda m: m.name)` (stable). -/
def sortMethodsByName (ms : List Method) : List Method :=
  ms.foldr insertMethod []

/-- Python `<` on lists of strings (tuple comparison, lexicographic). -/
def strListLtb : List String → List String → Bool
  | [], [] => false
  | [], _ :: _ => true
  | _ :: _, [] => false
  | x :: xs, y :: ys =>
    if strLtb x y then true else if strLtb y x then false else strListLtb xs ys

/-- The canonical-mode sort key of a dictified method:
`(meth["name"], tuple(a["type"] for a in meth["args"]))`. -/
def valMethodKey (v : Val) : String × List String :=
  (match dGet v "name" with | Val.str s => s | _ => "",
   match dGet v "args" with
   | Val.list avs =>
     avs.map fun a => match dGet a "type" with | Val.str t => t | _ => ""
   | _ => [])

/-- Python `<` on the canonical-mode sort keys. -/
def methKeyLtb (a b : String × List String) : Bool :=
  if strLtb a.1 b.1 then true
  else if strLtb b.1 a.1 then false
  else strListLtb a.2 b.2

/-- Stable insertion of a dictified method by canonical sort key. -/
def insertMethVal (x : Val) : List Val → List Val
  | [] => [x]
  | y :: ys =>
    if methKeyLtb (valMethodKey y) (valMethodKey x) then y :: insertMethVal x ys
    else x :: y :: ys

/-- The canonical-mode `method_sort` of `Contract.dictify` (stable). -/
def sortMethodVals (vs : List Val) : List Val := vs.foldr insertMethVal []

/-- `contract.py` `NetworkInfo`: the per-network application id. -/
structure NetworkInfo where
  app_id : Int
deriving DecidableEq, Repr

/-- `NetworkInfo.dictify`. -/
def NetworkInfo.dictify (n : NetworkInfo) : Val :=
  Val.dict [("appID", Val.int n.app_id)]

/-- `NetworkInfo.undictify`. -/
def NetworkInfo.undictify (v : Val) : Option NetworkInfo :=
  match dGet v "appID" with
  | Val.int n => some ⟨n⟩
  | _ => Option.none

/-- `NetworkInfo.__xor__`. -/
def NetworkInfo.xor (a b : NetworkInfo) : Val :=
  if a = b then Val.none
  else Val.dict [("appID", _differ (Val.int a.app_id) (Val.int b.app_id) false)]

/-- Python `==` on two `networks` dicts (order-insensitive: the same
keys bound to the same values). -/
def dictPyEq (xs ys : List (String × NetworkInfo)) : Bool :=
  decide ((∀ p ∈ xs, ys.lookup p.1 = some p.2) ∧
    (∀ p ∈ ys, xs.lookup p.1 = some p.2))

/-- `d[k]` on a `networks` dict; every source access is to a present key. -/
def nwLookup (xs : List (String × NetworkInfo)) (k : String) : NetworkInfo :=
  (xs.lookup k).getD ⟨0⟩

/-- `method.py` `_ddiffer` at its one call site (`networks` dicts):
`None` for equal dicts, else one entry per key of the union — recursive
diff on shared keys, `(value, None)` for left-only keys and
`(None, value)` for right-only keys.  The source iterates Python sets
(unspecified order); each key group is emitted here in sorted order. -/
def _ddiffer (xs ys : List (String × NetworkInfo)) : Val :=
  if dictPyEq xs ys then Val.none
  else
    let xkeys := (xs.map Prod.fst).eraseDups
    let ykeys := (ys.map Prod.fst).eraseDups
    let common := sortStrings (xkeys.filter fun k => ykeys.contains k)
    let xonly := sortStrings (xkeys.filter fun k => !(ykeys.contains k))
    let yonly := sortStrings (ykeys.filter fun k => !(xkeys.contains k))
    Val.dict
      (common.map (fun k => (k, NetworkInfo.xor (nwLookup xs k) (nwLookup ys k)))
       ++ xonly.map (fun k =>
            (k, Val.pair (NetworkInfo.dictify (nwLookup xs k)) Val.none))
       ++ yonly.map (fun k =>
            (k, Val.pair Val.none (NetworkInfo.dictify (nwLookup ys k)))))

/-- `contract.py` `Contract`.  The `networks` dict is an association
list in insertion order with (in any Python-constructible value) unique
keys. -/
structure Contract where
  name : String
  methods : List Method
  desc : Option String
  networks : List (String × NetworkInfo)
  canonical : Bool
deriving DecidableEq, Repr

/-- `Contract.__eq__`: `name`, `methods`, `desc` and `networks`; the
presentational `canonical` flag is not compared. -/
def Contract.pyEq (c o : Contract) : Bool :=
  decide (c.name = o.name) && methodsPyEq c.methods o.methods &&
    decide (c.desc = o.desc) && dictPyEq c.networks o.networks

/-- `Contract.dictify`: `name`, `methods`, `networks`, then `desc` when
it is not `None`; in canonical mode the methods are canonicalized and
sorted by `(name, argument type tuple)` and the keys are re-assembled in
the order `name`, `desc` (when present), `methods`, `networks`. -/
def Contract.dictify (c : Contract) : Val :=
  let meths := if c.canonical then c.methods.map Method.canonicalized
    else c.methods
  let methodVals := meths.map Method.dictify
  let networksVal :=
    Val.dict (c.networks.map fun p => (p.1, NetworkInfo.dictify p.2))
  let descEntry : List (String × Val) := match c.desc with
    | some d => [("desc", Val.str d)]
    | Option.none => []
  if c.canonical then
    Val.dict ([("name", Val.str c.name)] ++ descEntry ++
      [("methods", Val.list (sortMethodVals methodVals)),
       ("networks", networksVal)])
  else
    Val.dict ([("name", Val.str c.name),
      ("methods", Val.list methodVals), ("networks", networksVal)] ++
      descEntry)

/-- The names carried by `self.dictify()["methods"]`, as read by
`Contract._has_overloaded_methods`. -/
def Contract.dictifiedMethodNames (c : Contract) : List String :=
  match dGet (Contract.dictify c) "methods" with
  | Val.list vs =>
    vs.map fun v => match dGet v "name" with | Val.str s => s | _ => ""
  | _ => []

/-- `Contract._has_overloaded_methods`: some dictified method name has
multiplicity greater than one (`Counter(...).most_common(1)[0][1] > 1`,
false on an empty contract). -/
def Contract._has_overloaded_methods (c : Contract) : Bool :=
  c.dictifiedMethodNames.any fun n => c.dictifiedMethodNames.count n > 1

/-- Insertion into a Python dict keyed by method name
(`{m.name: m for m in methods}`): an existing key keeps its position and
takes the new value; a new key is appended. -/
def pyDictInsert (d : List (String × Method)) (k : String) (v : Method) :
    List (String × Method) :=
  if (d.map Prod.fst).contains k then
    d.map fun p => if p.1 = k then (k, v) else p
  else d ++ [(k, v)]

/-- The Python dict comprehension `{m.name: m for m in ms}` (later
entries overwrite earlier ones; key order is first-occurrence order). -/
def methodsToDict (ms : List Method) : List (String × Method) :=
  ms.foldl (fun d m => pyDictInsert d m.name m) []

/-- The `meth_diff` computation of `Contract.__xor__`: `None` for equal
method lists; the wholesale pair of both contracts' dictified method
lists when either side has overloaded names; otherwise per-name pairing
over the sorted shared/left-only/right-only name sets.  The source
iterates Python sets through `sorted`, which is the sorted order used
here. -/
def Contract.methDiff (c o : Contract) : Val :=
  if methodsPyEq c.methods o.methods then Val.none
  else if c._has_overloaded_methods || o._has_overloaded_methods then
    Val.pair (dGet (Contract.dictify c) "methods")
      (dGet (Contract.dictify o) "methods")
  else
    let sdict := methodsToDict c.methods
    let odict := methodsToDict o.methods
    let skeys := sdict.map Prod.fst
    let okeys := odict.map Prod.fst
    let s_only := sortStrings (skeys.filter fun n => !(okeys.contains n))
    let both := sortStrings (skeys.filter fun n => okeys.contains n)
    let o_only := sortStrings (okeys.filter fun n => !(skeys.contains n))
    Val.list
      (both.map (fun n => Method.xor ((sdict.lookup n).getD default)
          ((odict.lookup n).getD default))
       ++ s_only.map (fun n =>
            Val.pair (Method.dictify ((sdict.lookup n).getD default)) Val.none)
       ++ o_only.map (fun n =>
            Val.pair Val.none (Method.dictify ((odict.lookup n).getD default))))

/-- `Contract.__xor__`: `None` when `__eq__`, else the four-field dict. -/
def Contract.xor (c o : Contract) : Val :=
  if Contract.pyEq c o then Val.none
  else Val.dict [
    ("name", _differ (Val.str c.name) (Val.str o.name) false),
    ("desc", _differ (optStrVal c.desc) (optStrVal o.desc) false),
    ("methods", Contract.methDiff c o),
    ("networks", _ddiffer c.networks o.networks)]

/-- `Contract.equivalent`: trivially true on a `None` diff; on a truthy
`methods` entry require equal method counts and pairwise
`Method.equivalent` after sorting both method lists by name; finally
require a falsy `networks` entry. -/
def Contract.equivalent (c o : Contract) : Bool :=
  let diff := Contract.xor c o
  if diff.truthy = false then true
  else if (dGet diff "methods").truthy then
    if c.methods.length ≠ o.methods.length then false
    else if ((sortMethodsByName c.methods).zip
        (sortMethodsByName o.methods)).any
        (fun p => Method.equivalent p.1 p.2 = false) then false
    else (dGet diff "networks").truthy = false
  else (dGet diff "networks").truthy = false

/-- The list comprehension `[Method.undictify(m) for m in d["methods"]]`. -/
def undictifyMethods : List Val → Option (List Method)
  | [] => some []
  | v :: vs =>
    match Method.undictify v, undictifyMethods vs with
    | some m, some rest => some (m :: rest)
    | _, _ => Option.none

/-- The per-entry `NetworkInfo.undictify` loop of `Contract.undictify`. -/
def undictifyNetworks : List (String × Val) →
    Option (List (String × NetworkInfo))
  | [] => some []
  | (k, v) :: es =>
    match NetworkInfo.undictify v, undictifyNetworks es with
    | some ni, some rest => some ((k, ni) :: rest)
    | _, _ => Option.none

/-- `Contract.undictify`: `name` and `methods` are required, `desc` and
`networks` optional (`networks` defaults to the empty dict); the
`canonical` flag is left off. -/
def Contract.undictify (v : Val) : Option Contract :=
  match dGet v "name", dGet v "methods" with
  | Val.str n, Val.list mvs =>
    match undictifyMethods mvs with
    | some ms =>
      let ds := match dGet v "desc" with
        | Val.str s => some s
        | _ => Option.none
      let nets : Option (List (String × NetworkInfo)) :=
        match dGet v "networks" with
        | Val.dict es => undictifyNetworks es
        | Val.none => some []
        | _ => Option.none
      match nets with
      | some nw => some ⟨n, ms, ds, nw, false⟩
      | Option.none => Option.none
    | Option.none => Option.none
  | _, _ => Option.none

/-- Alias for the module-level lookup, so the `Contract` method below
can refer to it from inside the `Contract` namespace. -/
def methodByName : List Method → String → Except MethodLookupError Method :=
  get_method_by_name

/-- `Contract.get_method_by_name`: delegates to the module-level lookup
over the contract's method list. -/
def Contract.get_method_by_name (c : Contract) (name : String) :
    Except MethodLookupError Method :=
  methodByName c.methods name

/-- The comma join as the claim words it: empty for no tokens, the sole
token alone, else token, comma, rest. -/
def commaJoinSpec : List String → String
  | [] => ""
  | [t] => t
  | t :: ts => t ++ "," ++ commaJoinSpec ts

/-- The `,t1,t2,...` tail used to relate the two join formulations. -/
def commaTail : List String → String
  | [] => ""
  | t :: ts => "," ++ t ++ commaTail ts

/-- The method bound to a name in a (duplicate-free) method list, as the
claim words it. -/
def findByName (ms : List Method) (n : String) : Method :=
  (ms.find? fun m => decide (m.name = n)).getD default

/-- The `methods` entry of a Contract-vs-Contract diff as the claim
words it (the refinement's second definition): with overloaded names on
either side, the wholesale pair of both contracts' dictified method
lists; otherwise pair by name — a recursive `Method` diff for each name
in both contracts, `(dictified method, None)` for left-only names and
`(None, dictified method)` for right-only names. -/
def methodsDiffSpec (c o : Contract) : Val :=
  if c._has_overloaded_methods || o._has_overloaded_methods then
    Val.pair (dGet (Contract.dictify c) "methods")
      (dGet (Contract.dictify o) "methods")
  else
    let cnames := c.methods.map fun m => m.name
    let onames := o.methods.map fun m => m.name
    Val.list
      ((sortStrings (cnames.filter fun n => onames.contains n)).map
        (fun n => Method.xor (findByName c.methods n) (findByName o.methods n))
       ++ (sortStrings (cnames.filter fun n => !(onames.contains n))).map
        (fun n => Val.pair (Method.dictify (findByName c.methods n)) Val.none)
       ++ (sortStrings (onames.filter fun n => !(cnames.contains n))).map
        (fun n => Val.pair Val.none (Method.dictify (findByName o.methods n))))

/-- No optional string field of the argument holds the empty string
(Python's truthiness-based `dictify` drops empty strings, so they do not
survive a round trip). -/
def Argument.clean (a : Argument) : Prop :=
  a.name ≠ some "" ∧ a.desc ≠ some ""

/-- No optional string field of the returns holds the empty string. -/
def Returns.clean (r : Returns) : Prop :=
  r.desc ≠ some ""

/-- No optional string field of the method or its parts holds the empty
string. -/
def Method.clean (m : Method) : Prop :=
  m.desc ≠ some "" ∧ m.returns.clean ∧ ∀ a ∈ m.args, a.clean

instance (a : Argument) : Decidable a.clean := by
  unfold Argument.clean; infer_instance

instance (r : Returns) : Decidable r.clean := by
  unfold Returns.clean; infer_instance

instance (m : Method) : Decidable m.clean := by
  unfold Method.clean; infer_instance

/-- Fixture: the method `add(uint32,uint32)uint64`. -/
def exAdd : Method :=
  Method.make "add" [⟨"uint32", Option.none, Option.none⟩,
    ⟨"uint32", Option.none, Option.none⟩] ⟨"uint64", Option.none⟩
    Option.none false

/-- Fixture: the method `add(uint64)uint64` (overloads `exAdd`). -/
def exAdd2 : Method :=
  Method.make "add" [⟨"uint64", Option.none, Option.none⟩]
    ⟨"uint64", Option.none⟩ Option.none false

/-- Fixture: the method `sub(uint32)uint64`. -/
def exSub : Method :=
  Method.make "sub" [⟨"uint32", Option.none, Option.none⟩]
    ⟨"uint64", Option.none⟩ Option.none false

theorem lookup_cons {β : Type} (k k2 : String) (v : β) (es : List (String × β)) :
    ((k2, v) :: es).lookup k = if k = k2 then some v else es.lookup k := by
  by_cases h : k = k2
  · simp [List.lookup, h]
  · have hb : (k == k2) = false := beq_eq_false_iff_ne.mpr h
    simp [List.lookup, hb, h]

theorem dGet_cons (k k2 : String) (v : Val) (es : List (String × Val)) :
    dGet (Val.dict ((k2, v) :: es)) k =
      if k = k2 then v else dGet (Val.dict es) k := by
  by_cases h : k = k2 <;> simp [dGet, lookup_cons, h]

theorem dGet_nil (k : String) : dGet (Val.dict []) k = Val.none := rfl

theorem differ_self (x : Val) : _differ x x false = Val.none := by
  simp [_differ, Val.beq_iff]

theorem differ_eq_none_iff (x y : Val) :
    _differ x y false = Val.none ↔ x = y := by
  unfold _differ
  by_cases h : Val.beq x y = true
  · have hxy := (Val.beq_iff x y).mp h
    subst hxy
    simp [Val.beq_iff]
  · have : x ≠ y := fun he => h ((Val.beq_iff x y).mpr he)
    simp [h, this]

theorem methodPyEq_refl (m : Method) : Method.pyEq m m = true := by
  simp [Method.pyEq]

theorem methodsPyEq_refl : ∀ ms : List Method, methodsPyEq ms ms = true
  | [] => rfl
  | m :: ms => by
    simp [methodsPyEq, methodPyEq_refl m, methodsPyEq_refl ms]

theorem lookup_mem_of_nodup {β : Type} :
    ∀ xs : List (String × β), (xs.map Prod.fst).Nodup →
      ∀ p ∈ xs, xs.lookup p.1 = some p.2
  | [], _, p, hp => by cases hp
  | (k, v) :: rest, h, p, hp => by
    rw [List.map_cons] at h
    have h2 := List.nodup_cons.mp h
    rcases List.mem_cons.mp hp with h1 | h1
    · subst h1; simp [List.lookup]
    · have hk : p.1 ≠ k := by
        intro he
        exact h2.1 (he ▸ List.mem_map.mpr ⟨p, h1, rfl⟩)
      rw [lookup_cons]
      simp only [hk, if_false]
      exact lookup_mem_of_nodup rest h2.2 p h1

theorem dictPyEq_refl (xs : List (String × NetworkInfo))
    (h : (xs.map Prod.fst).Nodup) : dictPyEq xs xs = true := by
  simp only [dictPyEq, decide_eq_true_eq]
  exact ⟨lookup_mem_of_nodup xs h, lookup_mem_of_nodup xs h⟩

theorem contractPyEq_refl (c : Contract)
    (h : (c.networks.map Prod.fst).Nodup) : Contract.pyEq c c = true := by
  simp [Contract.pyEq, methodsPyEq_refl, dictPyEq_refl _ h]

/-- C3: for every covered entity kind (Argument, Returns, Method,
NetworkInfo, Contract), the diff is the `None` sentinel exactly when the
two values are structurally equal — structural equality being the
data-model equality the source's `__eq__` implements (`=` on the plain
records; `Method.pyEq`/`Contract.pyEq`, which compare every data-model
field and ignore only the presentational `canonical` flag) — and in
particular `diff(x, x)` is always `None` (for a `Contract`, under the
dict well-formedness of its `networks` keys, which every
Python-constructible value has). -/
theorem spec2proof_C3_diff_none_iff_eq :
    (∀ a b : Argument, Argument.xor a b = Val.none ↔ a = b) ∧
    (∀ a b : Returns, Returns.xor a b = Val.none ↔ a = b) ∧
    (∀ a b : NetworkInfo, NetworkInfo.xor a b = Val.none ↔ a = b) ∧
    (∀ m o : Method, Method.xor m o = Val.none ↔ Method.pyEq m o = true) ∧
    (∀ c o : Contract,
      Contract.xor c o = Val.none ↔ Contract.pyEq c o = true) ∧
    (∀ a : Argument, Argument.xor a a = Val.none) ∧
    (∀ r : Returns, Returns.xor r r = Val.none) ∧
    (∀ n : NetworkInfo, NetworkInfo.xor n n = Val.none) ∧
    (∀ m : Method, Method.xor m m = Val.none) ∧
    (∀ c : Contract, (c.networks.map Prod.fst).Nodup →
      Contract.xor c c = Val.none) := by
  refine ⟨?_, ?_, ?_, ?_, ?_, ?_, ?_, ?_, ?_, ?_⟩
  · intro a b; unfold Argument.xor; split <;> simp_all
  · intro a b; unfold Returns.xor; split <;> simp_all
  · intro a b; unfold NetworkInfo.xor; split <;> simp_all
  · intro m o; unfold Method.xor; split <;> simp_all
  · intro c o; unfold Contract.xor; split <;> simp_all
  · intro a; simp [Argument.xor]
  · intro r; simp [Returns.xor]
  · intro n; simp [NetworkInfo.xor]
  · intro m; simp [Method.xor, methodPyEq_refl]
  · intro c h; simp [Contract.xor, contractPyEq_refl c h]

/-- Witness for the hypothesis-bearing part of the C3 theorem at a
concrete contract. -/
theorem spec2proof_C3_witness :
    Contract.xor ⟨"C", [], Option.none, [("mainnet", ⟨7⟩)], false⟩
      ⟨"C", [], Option.none, [("mainnet", ⟨7⟩)], false⟩ = Val.none :=
  spec2proof_C3_diff_none_iff_eq.2.2.2.2.2.2.2.2.2
    ⟨"C", [], Option.none, [("mainnet", ⟨7⟩)], false⟩ (by decide)

theorem foldl_comma : ∀ (ts : List String) (acc : String),
    ts.foldl (fun a t => a ++ "," ++ t) acc = acc ++ commaTail ts
  | [], acc => by simp [commaTail]
  | t :: ts, acc => by
    simp only [List.foldl_cons, commaTail, foldl_comma ts]
    simp [String.append_assoc]

theorem commaJoinSpec_eq_tail : ∀ (t : String) (ts : List String),
    commaJoinSpec (t :: ts) = t ++ commaTail ts
  | t, [] => by simp [commaJoinSpec, commaTail]
  | t, u :: ts => by
    simp only [commaJoinSpec, commaTail, commaJoinSpec_eq_tail u ts]
    simp [String.append_assoc]

theorem joinComma_eq_spec : ∀ ts : List String, joinComma ts = commaJoinSpec ts
  | [] => rfl
  | t :: ts => by
    simp only [joinComma, foldl_comma, commaJoinSpec_eq_tail]

/-- C6: the selector is the first 4 bytes of the external 256-bit hash
of the UTF-8 bytes of `name(t1,...,tn)ret` (argument type strings in
order, comma-joined; `ret` the returns type string, `"void"` for the
void sentinel), and computing it twice for the same signature yields
identical output.  `hash256` is the external hash primitive the spec
treats as an opaque function. -/
theorem spec2proof_C6_selector :
    ∀ (hash256 : List Nat → List Nat) (m : Method),
      Method.get_selector hash256 m =
        (hash256 (utf8Bytes (m.name ++ "(" ++
          commaJoinSpec (m.args.map fun a => a.type) ++ ")" ++
          m.returns.type))).take 4 ∧
      ∀ m2 : Method, m.get_signature = m2.get_signature →
        Method.get_selector hash256 m = Method.get_selector hash256 m2 := by
  intro hash256 m
  constructor
  · unfold Method.get_selector Method.get_signature
    rw [joinComma_eq_spec]
  · intro m2 hs
    unfold Method.get_selector
    rw [hs]

/-- Witness for the C6 theorem: two methods that differ only in their
description share a signature, hence a selector, under a concrete
stand-in hash. -/
theorem spec2proof_C6_witness :
    Method.get_selector (fun _ => [1, 2, 3, 4, 5])
        (Method.make "add" [] ⟨"void", Option.none⟩ (some "d1") false) =
      Method.get_selector (fun _ => [1, 2, 3, 4, 5])
        (Method.make "add" [] ⟨"void", Option.none⟩ Option.none false) :=
  (spec2proof_C6_selector (fun _ => [1, 2, 3, 4, 5])
    (Method.make "add" [] ⟨"void", Option.none⟩ (some "d1") false)).2
    (Method.make "add" [] ⟨"void", Option.none⟩ Option.none false) rfl

/-- C7: after construction from direct field values (`Method.make`, the
embedding of `__init__`), from a signature string, or from a generic
map, `txn_calls` equals 1 plus the number of transaction-typed
arguments; and the one interface operation producing a new `Method` from
a `Method` (`canonicalized`) preserves it.  In the pure embedding no
other operation can mutate a constructed value. -/
theorem spec2proof_C7_txn_calls :
    (∀ (n : String) (args : List Argument) (r : Returns) (d : Option String)
        (cn : Bool),
      (Method.make n args r d cn).txn_calls =
        1 + args.countP fun a => is_abi_transaction_type a.type) ∧
    (∀ (s : String) (m : Method), Method.from_signature s = some m →
      m.txn_calls = 1 + m.args.countP fun a => is_abi_transaction_type a.type) ∧
    (∀ (v : Val) (m : Method), Method.undictify v = some m →
      m.txn_calls = 1 + m.args.countP fun a => is_abi_transaction_type a.type) ∧
    (∀ m : Method, m.canonicalized.txn_calls = m.txn_calls) := by
  refine ⟨fun n args r d cn => rfl, ?_, ?_, fun m => rfl⟩
  · intro s m h
    unfold Method.from_signature at h
    split at h
    next t0 t1 t2 =>
      split at h
      next ts hts =>
        simp only [Option.some.injEq] at h
        subst h
        rfl
      next => simp at h
    next => simp at h
  · intro v m h
    unfold Method.undictify at h
    split at h
    next n argVals =>
      split at h
      next args ret h1 h2 =>
        simp only [Option.some.injEq] at h
        subst h
        rfl
      next => simp at h
    next => simp at h

/-- Witness for the C7 theorem: a signature with one transaction-typed
argument parses to a method with `txn_calls` respecting the invariant
(concretely, `txn_calls = 2`). -/
theorem spec2proof_C7_witness :
    ((Method.from_signature "swap(txn,uint64)void").getD default).txn_calls =
      1 + ((Method.from_signature "swap(txn,uint64)void").getD
        default).args.countP (fun a => is_abi_transaction_type a.type) :=
  spec2proof_C7_txn_calls.2.1 "swap(txn,uint64)void" _ rfl

/-- C9: lookup-by-name returns the unique matching method when exactly
one matches (and that method bears the requested name and belongs to the
input list, which the pure function does not modify); with more than one
match it fails with the error carrying the signatures of all matching
methods; with none it fails with the not-found error. -/
theorem spec2proof_C9_get_method_by_name :
    ∀ (methods : List Method) (name : String),
      (∀ m : Method,
        methods.filter (fun m2 => decide (m2.name = name)) = [m] →
        get_method_by_name methods name = Except.ok m ∧ m.name = name ∧
          m ∈ methods) ∧
      (1 < (methods.filter fun m => decide (m.name = name)).length →
        get_method_by_name methods name = Except.error
          (MethodLookupError.ambiguous
            (methods.filter fun m => decide (m.name = name)).length
            ((methods.filter fun m => decide (m.name = name)).map
              Method.get_signature))) ∧
      (methods.filter (fun m => decide (m.name = name)) = [] →
        get_method_by_name methods name =
          Except.error (MethodLookupError.notFound name)) := by
  intro methods name
  refine ⟨?_, ?_, ?_⟩
  · intro m h
    refine ⟨?_, ?_, ?_⟩
    · simp [get_method_by_name, h]
    · have hm : m ∈ methods.filter (fun m2 => decide (m2.name = name)) := by
        rw [h]; simp
      have := List.of_mem_filter hm
      simpa using this
    · have hm : m ∈ methods.filter (fun m2 => decide (m2.name = name)) := by
        rw [h]; simp
      exact List.mem_of_mem_filter hm
  · intro h
    simp only [get_method_by_name, if_pos h]
  · intro h
    simp [get_method_by_name, h]

/-- Witness for the C9 theorem: the three behaviours at concrete inputs —
a unique match, an ambiguous overloaded pair, and a missing name. -/
theorem spec2proof_C9_witness :
    get_method_by_name [exAdd, exSub] "add" = Except.ok exAdd ∧
    get_method_by_name [exAdd, exAdd2] "add" = Except.error
      (MethodLookupError.ambiguous 2
        ["add(uint32,uint32)uint64", "add(uint64)uint64"]) ∧
    get_method_by_name [exSub] "zz" =
      Except.error (MethodLookupError.notFound "zz") := by
  refine ⟨?_, ?_, ?_⟩
  · exact ((spec2proof_C9_get_method_by_name [exAdd, exSub] "add").1 exAdd
      (by decide)).1
  · exact (spec2proof_C9_get_method_by_name [exAdd, exAdd2] "add").2.1
      (by decide)
  · exact (spec2proof_C9_get_method_by_name [exSub] "zz").2.2 (by decide)

theorem arg_roundtrip (a : Argument) (h : a.clean) :
    Argument.undictify a.dictify = some a := by
  rcases a with ⟨t, nm, ds⟩
  rcases h with ⟨h1, h2⟩
  rcases nm with _ | s
  · rcases ds with _ | d
    · simp [Argument.dictify, Argument.undictify, dGet_cons, dGet_nil,
        optStrTruthy, optStrVal]
    · have hd : d ≠ "" := fun he => h2 (by rw [he])
      simp [Argument.dictify, Argument.undictify, dGet_cons, dGet_nil,
        optStrTruthy, optStrVal, hd]
  · have hs : s ≠ "" := fun he => h1 (by rw [he])
    rcases ds with _ | d
    · simp [Argument.dictify, Argument.undictify, dGet_cons, dGet_nil,
        optStrTruthy, optStrVal, hs]
    · have hd : d ≠ "" := fun he => h2 (by rw [he])
      simp [Argument.dictify, Argument.undictify, dGet_cons, dGet_nil,
        optStrTruthy, optStrVal, hs, hd]

theorem ret_roundtrip (r : Returns) (h : r.clean) :
    Returns.undictify r.dictify = some r := by
  rcases r with ⟨t, ds⟩
  rcases ds with _ | d
  · simp [Returns.dictify, Returns.undictify, dGet_cons, dGet_nil,
      optStrTruthy, optStrVal]
  · have hd : d ≠ "" := fun he => h (by rw [he])
    simp [Returns.dictify, Returns.undictify, dGet_cons, dGet_nil,
      optStrTruthy, optStrVal, hd]

theorem undictifyArgs_roundtrip : ∀ args : List Argument,
    (∀ a ∈ args, a.clean) →
    undictifyArgs (args.map Argument.dictify) = some args
  | [], _ => rfl
  | a :: as, h => by
    simp only [List.map_cons, undictifyArgs, arg_roundtrip a (h a (by simp)),
      undictifyArgs_roundtrip as (fun x hx => h x (by simp [hx]))]

theorem method_roundtrip (m : Method) (hw : m.wf) (hcl : m.clean)
    (hcan : m.canonical = false) : Method.undictify m.dictify = some m := by
  rcases m with ⟨n, args, r, ds, tc, can⟩
  simp only at hcan
  subst hcan
  rcases hcl with ⟨h1, h2, h3⟩
  have hargs := undictifyArgs_roundtrip args h3
  have hret := ret_roundtrip r h2
  have htc : tc = 1 + args.countP fun a => is_abi_transaction_type a.type := hw
  subst htc
  rcases ds with _ | d
  · simp [Method.dictify, Method.undictify, dGet_cons, dGet_nil, optStrTruthy,
      optStrVal, hargs, hret, Method.make]
  · have hd : d ≠ "" := fun he => h1 (by rw [he])
    simp [Method.dictify, Method.undictify, dGet_cons, dGet_nil, optStrTruthy,
      optStrVal, hargs, hret, hd, Method.make]

theorem nw_roundtrip (x : NetworkInfo) :
    NetworkInfo.undictify x.dictify = some x := rfl

theorem undictifyNetworks_roundtrip : ∀ nw : List (String × NetworkInfo),
    undictifyNetworks (nw.map fun p => (p.1, NetworkInfo.dictify p.2)) =
      some nw
  | [] => rfl
  | (k, x) :: rest => by
    simp only [List.map_cons, undictifyNetworks, nw_roundtrip,
      undictifyNetworks_roundtrip rest]

theorem undictifyMethods_roundtrip : ∀ ms : List Method,
    (∀ m ∈ ms, m.wf ∧ m.clean ∧ m.canonical = false) →
    undictifyMethods (ms.map Method.dictify) = some ms
  | [], _ => rfl
  | m :: ms, h => by
    have hm := h m (by simp)
    simp only [List.map_cons, undictifyMethods,
      method_roundtrip m hm.1 hm.2.1 hm.2.2,
      undictifyMethods_roundtrip ms (fun x hx => h x (by simp [hx]))]

theorem contract_roundtrip (c : Contract) (hcan : c.canonical = false)
    (hm : ∀ m ∈ c.methods, m.wf ∧ m.clean ∧ m.canonical = false) :
    Contract.undictify c.dictify = some c := by
  rcases c with ⟨n, ms, ds, nw, can⟩
  simp only at hcan hm
  subst hcan
  have hms := undictifyMethods_roundtrip ms hm
  have hnw := undictifyNetworks_roundtrip nw
  rcases ds with _ | d
  · simp [Contract.dictify, Contract.undictify, dGet_cons, dGet_nil,
      hms, hnw]
  · simp [Contract.dictify, Contract.undictify, dGet_cons, dGet_nil,
      hms, hnw]

/-- C4 counterexample: an `Argument` whose optional `name` holds the
empty string does not survive `undictify ∘ dictify` — the
truthiness-based `dictify` drops the empty-string field, so the claim as
stated fails at this input. -/
theorem spec2proof_C4_counterexample :
    Argument.undictify
      (Argument.dictify ⟨"uint64", some "", Option.none⟩) ≠
      some (⟨"uint64", some "", Option.none⟩ : Argument) := by decide

/-- C4 (amended): with canonical mode off, `undictify (dictify v) = v`
for every Contract/Method/Argument/Returns value whose optional
name/desc string fields are absent or non-empty (`clean`) — Methods
additionally carrying the derived `txn_calls` of the data-model
invariant, as every Python-constructed value does. -/
theorem spec2proof_C4_roundtrip :
    (∀ a : Argument, a.clean → Argument.undictify a.dictify = some a) ∧
    (∀ r : Returns, r.clean → Returns.undictify r.dictify = some r) ∧
    (∀ m : Method, m.wf → m.clean → m.canonical = false →
      Method.undictify m.dictify = some m) ∧
    (∀ c : Contract, c.canonical = false →
      (∀ m ∈ c.methods, m.wf ∧ m.clean ∧ m.canonical = false) →
      Contract.undictify c.dictify = some c) :=
  ⟨arg_roundtrip, ret_roundtrip, method_roundtrip, contract_roundtrip⟩

/-- Witness for the C4 theorem: a concrete contract (with a method, an
empty-string contract description — kept by `Contract.dictify`'s
`is not None` test — and a network entry) round trips. -/
theorem spec2proof_C4_witness :
    Contract.undictify (Contract.dictify
        ⟨"C", [exAdd], some "", [("mainnet", ⟨7⟩)], false⟩) =
      some (⟨"C", [exAdd], some "", [("mainnet", ⟨7⟩)], false⟩ : Contract) :=
  spec2proof_C4_roundtrip.2.2.2 _ rfl (by decide)

theorem parseLoop_eq_spec : ∀ (full cs : List Char) (i : Nat)
    (stack : List Nat) (depth first : Nat), stack.length = depth →
    (depth ≠ 0 → stack.getLast? = some first) →
    parseLoop full cs i stack = parseSpecLoop full cs i depth first
  | full, [], i, stack, depth, first, h1, h2 => rfl
  | full, c :: rest, i, stack, depth, first, h1, h2 => by
    simp only [parseLoop, parseSpecLoop]
    by_cases hc : c = '('
    · rw [if_pos hc, if_pos hc]
      rcases stack with _ | ⟨s, ss⟩
      · have hd : depth = 0 := by simpa using h1.symm
        subst hd
        exact parseLoop_eq_spec full rest (i + 1) [i] 1 i rfl
          (fun _ => rfl)
      · have hd : depth ≠ 0 := by
          rw [← h1]; simp
        have hfirst : (if depth = 0 then i else first) = first := by
          rw [if_neg hd]
        rw [hfirst]
        refine parseLoop_eq_spec full rest (i + 1) (i :: s :: ss)
          (depth + 1) first (by simpa using h1) ?_
        intro _
        rw [List.getLast?_cons_cons]
        exact h2 hd
    · rw [if_neg hc, if_neg hc]
      by_cases hc2 : c = ')'
      · rw [if_pos hc2, if_pos hc2]
        rcases stack with _ | ⟨l, stack2⟩
        · have hd : depth = 0 := by simpa using h1.symm
          rw [if_pos hd]
        · have hd : depth = stack2.length + 1 := by simpa using h1.symm
          rcases stack2 with _ | ⟨s, ss⟩
          · have hd1 : depth = 1 := by simpa using hd
            subst hd1
            have hl : l = first := by
              have := h2 (by simp)
              simpa using this
            subst hl
            simp
          · have hdn : depth ≠ 0 := by omega
            have hdn1 : depth ≠ 1 := by simp at hd; omega
            rw [if_neg hdn, if_neg hdn1]
            simp only [List.cons_ne_self]
            rw [if_neg (by simp : ¬(s :: ss = []))]
            refine parseLoop_eq_spec full rest (i + 1) (s :: ss)
              (depth - 1) first (by simp at hd ⊢; omega) ?_
            intro _
            rw [← List.getLast?_cons_cons (l := ss) (a := l) (b := s)]
            exact h2 hdn
      · rw [if_neg hc2, if_neg hc2]
        exact parseLoop_eq_spec full rest (i + 1) stack depth first h1 h2

theorem split_paren : ∀ (full : List Char) (l r : Nat), l < r →
    full[l]? = some '(' → full[r]? = some ')' →
    full = full.take l ++ ('(' :: ((full.drop (l + 1)).take (r - (l + 1)) ++
      (')' :: full.drop (r + 1)))) := by
  intro full l r hlr h1 h2
  obtain ⟨hl, he1⟩ := List.getElem?_eq_some.mp h1
  obtain ⟨hr, he2⟩ := List.getElem?_eq_some.mp h2
  conv_lhs => rw [← List.take_append_drop l full]
  congr 1
  rw [List.drop_eq_getElem_cons hl, he1]
  congr 1
  conv_lhs => rw [← List.take_append_drop (r - (l + 1)) (full.drop (l + 1))]
  congr 1
  rw [List.drop_drop]
  have he : l + 1 + (r - (l + 1)) = r := by omega
  rw [he, List.drop_eq_getElem_cons hr, he2]

theorem parseLoop_decomp : ∀ (cs : List Char) (full : List Char) (i : Nat)
    (stack : List Nat), cs = full.drop i →
    (∀ l ∈ stack, l < i ∧ full[l]? = some '(') →
    ∀ a b c : String, parseLoop full cs i stack = some [a, b, c] →
    ∃ l r : Nat, l < r ∧ full[l]? = some '(' ∧ full[r]? = some ')' ∧
      a = String.mk (full.take l) ∧
      b = String.mk ((full.drop (l + 1)).take (r - (l + 1))) ∧
      c = String.mk (full.drop (r + 1))
  | [], full, i, stack, hcs, hst, a, b, c, h => by
    simp [parseLoop] at h
  | ch :: rest, full, i, stack, hcs, hst, a, b, c, h => by
    have hchar : full[i]? = some ch := by
      have : (full.drop i)[0]? = full[i + 0]? := List.getElem?_drop full i 0
      rw [← hcs] at this
      simpa using this.symm
    have hrest : full.drop (i + 1) = rest := by
      have hdd : List.drop 1 (List.drop i full) = List.drop (i + 1) full :=
        List.drop_drop 1 i full
      rw [← hcs] at hdd
      simpa using hdd.symm
    simp only [parseLoop] at h
    by_cases hc : ch = '('
    · rw [if_pos hc] at h
      refine parseLoop_decomp rest full (i + 1) (i :: stack) hrest.symm
        ?_ a b c h
      intro l hl
      rcases List.mem_cons.mp hl with h1 | h1
      · subst h1
        exact ⟨by omega, by rw [hchar, hc]⟩
      · exact ⟨by have := (hst l h1).1; omega, (hst l h1).2⟩
    · rw [if_neg hc] at h
      by_cases hc2 : ch = ')'
      · rw [if_pos hc2] at h
        rcases stack with _ | ⟨l, stack2⟩
        · simp at h
        · rcases stack2 with _ | ⟨s, ss⟩
          · simp only [if_true, Option.some.injEq, List.cons.injEq,
              and_true] at h
            obtain ⟨ha, hb, hcc⟩ := h
            exact ⟨l, i, (hst l (by simp)).1, (hst l (by simp)).2,
              by rw [hchar, hc2], ha.symm, hb.symm, hcc.symm⟩
          · have h2 : parseLoop full rest (i + 1) (s :: ss) =
                some [a, b, c] := by
              simp only [List.cons_ne_nil, if_false, reduceIte] at h
              exact h
            refine parseLoop_decomp rest full (i + 1) (s :: ss) hrest.symm
              ?_ a b c h2
            intro l2 hl2
            have := hst l2 (List.mem_cons_of_mem l hl2)
            exact ⟨by omega, this.2⟩
      · rw [if_neg hc2] at h
        refine parseLoop_decomp rest full (i + 1) stack hrest.symm ?_ a b c h
        intro l hl
        have := hst l hl
        exact ⟨by omega, this.2⟩

/-- C5: the stack-based signature parser agrees everywhere with the
claim's depth-counting reading (`parseStringSpec`); a successful parse
returns exactly three tokens that decompose the input as
`name ++ "(" ++ args ++ ")" ++ ret`; the two quoted examples parse as
stated; a `)` on an empty stack and an unclosed `(` are malformed
(`Option.none` embeds the mismatched-parentheses error). -/
theorem spec2proof_C5_parse_string :
    (∀ s : String, Method.parse_string s = parseStringSpec s) ∧
    (∀ s a b c : String, Method.parse_string s = some [a, b, c] →
      s = a ++ "(" ++ b ++ ")" ++ c) ∧
    Method.parse_string "add(uint32,uint32)uint64" =
      some ["add", "uint32,uint32", "uint64"] ∧
    Method.parse_string "noop()void" = some ["noop", "", "void"] ∧
    Method.parse_string ")uint64(" = Option.none ∧
    Method.parse_string "add(uint32" = Option.none := by
  refine ⟨?_, ?_, by decide, by decide, by decide, by decide⟩
  · intro s
    exact parseLoop_eq_spec s.data s.data 0 [] 0 0 rfl (by simp)
  · intro s a b c h
    obtain ⟨l, r, hlr, h1, h2, ha, hb, hcc⟩ :=
      parseLoop_decomp s.data s.data 0 [] (by simp) (by simp) a b c h
    subst ha; subst hb; subst hcc
    have hlist := split_paren s.data l r hlr h1 h2
    have happ : ∀ x y : List Char, String.mk x ++ String.mk y =
        String.mk (x ++ y) := fun x y => rfl
    rw [show ("(" : String) = String.mk ['('] from rfl,
      show (")" : String) = String.mk [')'] from rfl, happ, happ, happ, happ]
    conv_lhs => rw [show s = String.mk s.data from rfl]
    refine congrArg String.mk ?_
    conv_lhs => rw [hlist]
    simp [List.append_assoc]

/-- Witness for the C5 theorem: the decomposition at the concrete
signature `add(uint32,uint32)uint64`. -/
theorem spec2proof_C5_witness :
    "add(uint32,uint32)uint64" =
      "add" ++ "(" ++ "uint32,uint32" ++ ")" ++ "uint64" :=
  spec2proof_C5_parse_string.2.1 "add(uint32,uint32)uint64"
    "add" "uint32,uint32" "uint64" (by decide)

theorem method_equivalent_of_cosmetic (m1 m2 : Method)
    (ht : m1.txn_calls = m2.txn_calls) (hr : m1.returns = m2.returns)
    (hl : m1.args.length = m2.args.length)
    (hp : ∀ p ∈ m1.args.zip m2.args, p.1.type = p.2.type) :
    Method.equivalent m1 m2 = true := by
  unfold Method.equivalent
  by_cases hpy : Method.pyEq m1 m2 = true
  · simp [Method.xor, hpy, Val.truthy]
  · have hxor : Method.xor m1 m2 = Val.dict [
        ("name", _differ (Val.str m1.name) (Val.str m2.name) true),
        ("desc", _differ (optStrVal m1.desc) (optStrVal m2.desc) false),
        ("args", _ldiffer m1.args m2.args),
        ("returns", Returns.xor m1.returns m2.returns),
        ("txn_calls", _differ (Val.int m1.txn_calls)
          (Val.int m2.txn_calls) false)] := by
      unfold Method.xor
      rw [if_neg hpy]
    rw [hxor]
    have hret : Returns.xor m1.returns m2.returns = Val.none := by
      rw [hr, Returns.xor, if_pos rfl]
    have htc : _differ (Val.int m1.txn_calls) (Val.int m2.txn_calls) false =
        Val.none := by
      rw [ht]; exact differ_self _
    have hname : _differ (Val.str m1.name) (Val.str m2.name) true =
        Val.str m1.name := rfl
    simp only [dGet_cons, dGet_nil, String.reduceEq, reduceIte, hret, htc,
      hname, Val.truthy, Val.isStr, List.cons_ne_nil, ne_eq,
      not_false_eq_true, Bool.or_false, Bool.false_or]
    simp [hl]
    intro p q hpq
    have h5 : p.type = q.type := hp (p, q) hpq
    simp [Argument.equivalent, h5]

theorem countP_eq_of_zip_types : ∀ xs ys : List Argument,
    xs.length = ys.length → (∀ p ∈ xs.zip ys, p.1.type = p.2.type) →
    xs.countP (fun a => is_abi_transaction_type a.type) =
      ys.countP (fun a => is_abi_transaction_type a.type)
  | [], [], _, _ => rfl
  | [], y :: ys, hl, _ => by simp at hl
  | x :: xs, [], hl, _ => by simp at hl
  | x :: xs, y :: ys, hl, hp => by
    have ht : x.type = y.type := hp (x, y) (by simp)
    have ih := countP_eq_of_zip_types xs ys (by simpa using hl)
      (fun p hp2 => hp p (by simp [hp2]))
    simp [List.countP_cons, ih, ht]

/-- C8 counterexample: the claim counts the returns description among
the cosmetic metadata, but a returns-description change alone already
voids `Method.equivalent`: the `returns` entry of the diff is a
(truthy) dict whenever the `Returns` values differ at all, `desc`
included. -/
theorem spec2proof_C8_counterexample :
    Method.equivalent
      (Method.make "f" [⟨"uint64", some "a", Option.none⟩]
        ⟨"void", some "the sum"⟩ (some "adds") false)
      (Method.make "f" [⟨"uint64", some "b", Option.none⟩]
        ⟨"void", Option.none⟩ Option.none false) = false := by decide

/-- C8 (amended): two Methods agreeing on name, argument count,
pairwise argument type strings and on the whole `Returns` value (type
AND description — a returns-description change is not cosmetic for this
code) are equivalent whatever their method description, argument names
and argument descriptions; `f(uint64)void` vs `f(uint32)void` are not
equivalent.  `wf` is the data-model `txn_calls` invariant every
Python-constructed Method has. -/
theorem spec2proof_C8_equivalent_cosmetic :
    (∀ m1 m2 : Method, Method.wf m1 → Method.wf m2 → m1.name = m2.name →
      m1.returns = m2.returns → m1.args.length = m2.args.length →
      (∀ p ∈ m1.args.zip m2.args, p.1.type = p.2.type) →
      Method.equivalent m1 m2 = true) ∧
    Method.equivalent
      (Method.make "f" [⟨"uint64", Option.none, Option.none⟩]
        ⟨"void", Option.none⟩ Option.none false)
      (Method.make "f" [⟨"uint32", Option.none, Option.none⟩]
        ⟨"void", Option.none⟩ Option.none false) = false := by
  constructor
  · intro m1 m2 hw1 hw2 hn hr hl hp
    have ht : m1.txn_calls = m2.txn_calls := by
      rw [hw1, hw2, countP_eq_of_zip_types m1.args m2.args hl hp]
    exact method_equivalent_of_cosmetic m1 m2 ht hr hl hp
  · decide

/-- Witness for the C8 theorem: same type strings, different method
description, argument name and argument description — equivalent. -/
theorem spec2proof_C8_witness :
    Method.equivalent
      (Method.make "f" [⟨"uint64", some "a", some "first"⟩]
        ⟨"void", Option.none⟩ (some "adds") false)
      (Method.make "f" [⟨"uint64", some "b", Option.none⟩]
        ⟨"void", Option.none⟩ Option.none false) = true :=
  spec2proof_C8_equivalent_cosmetic.1 _ _ rfl rfl rfl rfl rfl (by decide)

/-- C10: `Method.equivalent` never distinguishes by the method's own
name — with equal `txn_calls`, equal `returns` (type and description),
equal argument counts and pairwise type-identical arguments it returns
true whatever the names; and on every non-equal pair the `name` entry
of the diff is the plain left name string (the non-erasing `_differ`),
so the string-shape guard cannot fail. -/
theorem spec2proof_C10_name_blind :
    (∀ m1 m2 : Method, m1.txn_calls = m2.txn_calls →
      m1.returns = m2.returns → m1.args.length = m2.args.length →
      (∀ p ∈ m1.args.zip m2.args, p.1.type = p.2.type) →
      Method.equivalent m1 m2 = true) ∧
    (∀ m1 m2 : Method, Method.pyEq m1 m2 = false →
      dGet (Method.xor m1 m2) "name" = Val.str m1.name) := by
  constructor
  · exact method_equivalent_of_cosmetic
  · intro m1 m2 h
    unfold Method.xor
    rw [if_neg (by simp [h])]
    simp [dGet_cons, _differ]

/-- Witness for the C10 theorem: two methods differing only in name are
equivalent. -/
theorem spec2proof_C10_witness :
    Method.equivalent
      (Method.make "f" [⟨"uint64", Option.none, Option.none⟩]
        ⟨"void", Option.none⟩ Option.none false)
      (Method.make "g" [⟨"uint64", Option.none, Option.none⟩]
        ⟨"void", Option.none⟩ Option.none false) = true :=
  spec2proof_C10_name_blind.1 _ _ rfl rfl rfl (by decide)

theorem truthy_dict_cons (e : String × Val) (es : List (String × Val)) :
    (Val.dict (e :: es)).truthy = true := by simp [Val.truthy]

/-- C1: `Contract.equivalent` is true exactly when the structural diff
is `None`, or else when the `networks` entry of the diff is empty
(falsy) and — whenever the `methods` entry is non-empty (truthy) — the
two contracts have equal method counts and the methods at matching
positions after sorting each side by name are pairwise
`Method`-equivalent. -/
theorem spec2proof_C1_contract_equivalent :
    ∀ c o : Contract,
      Contract.equivalent c o = true ↔
        (Contract.xor c o = Val.none ∨
         ((_ddiffer c.networks o.networks).truthy = false ∧
          ((Contract.methDiff c o).truthy = true →
            c.methods.length = o.methods.length ∧
            ∀ p ∈ (sortMethodsByName c.methods).zip
                (sortMethodsByName o.methods),
              Method.equivalent p.1 p.2 = true))) := by
  intro c o
  unfold Contract.equivalent
  by_cases hpy : Contract.pyEq c o = true
  · have hxor : Contract.xor c o = Val.none := by
      unfold Contract.xor; rw [if_pos hpy]
    simp [hxor, Val.truthy]
  · have hxor : Contract.xor c o = Val.dict [
        ("name", _differ (Val.str c.name) (Val.str o.name) false),
        ("desc", _differ (optStrVal c.desc) (optStrVal o.desc) false),
        ("methods", Contract.methDiff c o),
        ("networks", _ddiffer c.networks o.networks)] := by
      unfold Contract.xor; rw [if_neg hpy]
    rw [hxor]
    simp only [dGet_cons, dGet_nil, String.reduceEq, reduceIte,
      truthy_dict_cons]
    rw [if_neg (by simp)]
    by_cases hm : (Contract.methDiff c o).truthy = true
    · rw [if_pos hm]
      by_cases hlen : c.methods.length = o.methods.length
      · rw [if_neg (by simp [hlen])]
        by_cases hany : (((sortMethodsByName c.methods).zip
            (sortMethodsByName o.methods)).any
            fun p => decide (Method.equivalent p.1 p.2 = false)) = true
        · rw [if_pos hany]
          constructor
          · intro h; simp at h
          · rintro (h | ⟨h1, h2⟩)
            · simp at h
            · obtain ⟨p, hp1, hp2⟩ := List.any_eq_true.mp hany
              have h3 := (h2 hm).2 p hp1
              simp [h3] at hp2
        · rw [if_neg hany]
          have hall : ∀ p ∈ (sortMethodsByName c.methods).zip
              (sortMethodsByName o.methods),
              Method.equivalent p.1 p.2 = true := by
            intro p hp
            by_contra hc
            exact hany (List.any_eq_true.mpr ⟨p, hp, by
              simp only [decide_eq_true_eq]
              exact Bool.eq_false_iff.mpr hc⟩)
          simp only [decide_eq_true_eq]
          constructor
          · intro h
            exact Or.inr ⟨h, fun _ => ⟨hlen, hall⟩⟩
          · rintro (h | ⟨h1, _⟩)
            · simp at h
            · exact h1
      · rw [if_pos hlen]
        constructor
        · intro h; simp at h
        · rintro (h | ⟨h1, h2⟩)
          · simp at h
          · exact absurd (h2 hm).1 hlen
    · rw [if_neg hm]
      simp only [decide_eq_true_eq]
      constructor
      · intro h
        exact Or.inr ⟨h, fun hx => absurd hx hm⟩
      · rintro (h | ⟨h1, _⟩)
        · simp at h
        · exact h1

/-- Witness for the C1 theorem at concrete contracts: a `None` diff
yields equivalence. -/
theorem spec2proof_C1_witness :
    Contract.equivalent ⟨"C", [exAdd], Option.none, [("net", ⟨1⟩)], false⟩
      ⟨"C", [exAdd], Option.none, [("net", ⟨1⟩)], false⟩ = true :=
  (spec2proof_C1_contract_equivalent
    ⟨"C", [exAdd], Option.none, [("net", ⟨1⟩)], false⟩
    ⟨"C", [exAdd], Option.none, [("net", ⟨1⟩)], false⟩).mpr
    (Or.inl (by decide))

theorem nameOf_dictify (m : Method) :
    dGet (Method.dictify m) "name" = Val.str m.name := by
  unfold Method.dictify
  cases hc : m.canonical <;> simp [hc, dGet_cons]

theorem insertMethVal_perm (x : Val) :
    ∀ ys : List Val, List.Perm (insertMethVal x ys) (x :: ys)
  | [] => List.Perm.refl _
  | y :: ys => by
    unfold insertMethVal
    by_cases h : methKeyLtb (valMethodKey y) (valMethodKey x) = true
    · rw [if_pos h]
      exact ((insertMethVal_perm x ys).cons y).trans (List.Perm.swap x y ys)
    · rw [if_neg h]

theorem sortMethodVals_perm :
    ∀ vs : List Val, List.Perm (sortMethodVals vs) vs
  | [] => List.Perm.refl _
  | v :: vs => by
    unfold sortMethodVals
    simp only [List.foldr_cons]
    exact (insertMethVal_perm v _).trans
      ((sortMethodVals_perm vs).cons v)

theorem dictify_methods_entry (c : Contract) :
    dGet (Contract.dictify c) "methods" = Val.list
      (if c.canonical then
        sortMethodVals ((c.methods.map Method.canonicalized).map
          Method.dictify)
      else c.methods.map Method.dictify) := by
  unfold Contract.dictify
  rcases hd : c.desc with _ | d <;> cases hc : c.canonical <;>
    simp [hd, hc, dGet_cons]

theorem dictifiedMethodNames_perm (c : Contract) :
    List.Perm c.dictifiedMethodNames (c.methods.map fun m => m.name) := by
  unfold Contract.dictifiedMethodNames
  rw [dictify_methods_entry]
  have hname : (fun v => match dGet v "name" with
      | Val.str s => s
      | _ => "") ∘ Method.dictify = fun m : Method => m.name := by
    funext m
    simp [nameOf_dictify m]
  cases hc : c.canonical
  · rw [if_neg (by simp)]
    have hgoal : (List.map (fun v => match dGet v "name" with
        | Val.str s => s
        | _ => "") (c.methods.map Method.dictify)).Perm
        (c.methods.map fun m => m.name) := by
      rw [List.map_map, hname]
    exact hgoal
  · rw [if_pos rfl]
    have hgoal : (List.map (fun v => match dGet v "name" with
        | Val.str s => s
        | _ => "") (sortMethodVals ((c.methods.map
          Method.canonicalized).map Method.dictify))).Perm
        (c.methods.map fun m => m.name) := by
      refine ((sortMethodVals_perm _).map _).trans ?_
      rw [List.map_map, hname, List.map_map]
      rw [show (fun m : Method => m.name) ∘ Method.canonicalized =
        fun m : Method => m.name from rfl]
    exact hgoal

theorem hasOverloaded_false_iff (c : Contract) :
    c._has_overloaded_methods = false ↔
      (c.methods.map fun m => m.name).Nodup := by
  unfold Contract._has_overloaded_methods
  rw [← (dictifiedMethodNames_perm c).nodup_iff]
  rw [List.nodup_iff_count_le_one]
  constructor
  · intro h a
    by_cases ha : a ∈ c.dictifiedMethodNames
    · have h2 := List.any_eq_false.mp h a ha
      simpa using h2
    · simp [List.count_eq_zero_of_not_mem ha]
  · intro h
    rw [List.any_eq_false]
    intro a ha
    simpa using h a

theorem methodsToDict_aux : ∀ (ms : List Method)
    (acc : List (String × Method)),
    (acc.map Prod.fst ++ ms.map fun m => m.name).Nodup →
    ms.foldl (fun d m => pyDictInsert d m.name m) acc =
      acc ++ ms.map fun m => (m.name, m)
  | [], acc, _ => by simp
  | m :: ms, acc, h => by
    have hnotin : ¬ (acc.map Prod.fst).contains m.name = true := by
      intro hc
      have hmem : m.name ∈ acc.map Prod.fst := by simpa using hc
      have hd := (List.nodup_append.mp (by simpa using h)).2.2
      exact hd hmem (by simp)
    simp only [List.foldl_cons]
    rw [show pyDictInsert acc m.name m = acc ++ [(m.name, m)] by
      unfold pyDictInsert; rw [if_neg hnotin]]
    rw [methodsToDict_aux ms (acc ++ [(m.name, m)]) (by
      simp only [List.map_append, List.map_cons, List.map_nil,
        List.append_assoc, List.singleton_append]
      simpa using h)]
    simp

theorem methodsToDict_of_nodup (ms : List Method)
    (h : (ms.map fun m => m.name).Nodup) :
    methodsToDict ms = ms.map fun m => (m.name, m) := by
  have := methodsToDict_aux ms [] (by simpa using h)
  simpa [methodsToDict] using this

theorem lookup_map_pair : ∀ (ms : List Method) (n : String),
    ((ms.map fun m => (m.name, m)).lookup n).getD default =
      findByName ms n
  | [], n => rfl
  | m :: ms, n => by
    unfold findByName
    by_cases h : n = m.name
    · simp [List.lookup, List.find?, h, beq_iff_eq]
    · have h2 : (decide (m.name = n)) = false := by
        simp
        exact fun he => h he.symm
      simp only [List.map_cons, lookup_cons, List.find?]
      rw [if_neg h, h2]
      exact lookup_map_pair ms n

/-- C2: for contracts whose method lists differ, the `methods` entry of
the diff is the wholesale pair of both contracts' dictified method lists
whenever either side has overloaded method names, and otherwise equals
the claim's per-name pairing (`methodsDiffSpec`): a recursive diff for
every shared name and `(dictified, None)` / `(None, dictified)` entries
for one-sided names, each group in sorted name order. -/
theorem spec2proof_C2_methods_entry :
    ∀ c o : Contract, methodsPyEq c.methods o.methods = false →
      dGet (Contract.xor c o) "methods" = methodsDiffSpec c o := by
  intro c o h
  have hpy : ¬ Contract.pyEq c o = true := by
    unfold Contract.pyEq
    simp [h]
  have hxor : Contract.xor c o = Val.dict [
      ("name", _differ (Val.str c.name) (Val.str o.name) false),
      ("desc", _differ (optStrVal c.desc) (optStrVal o.desc) false),
      ("methods", Contract.methDiff c o),
      ("networks", _ddiffer c.networks o.networks)] := by
    unfold Contract.xor; rw [if_neg hpy]
  rw [hxor]
  simp only [dGet_cons, dGet_nil, String.reduceEq, reduceIte]
  unfold Contract.methDiff methodsDiffSpec
  rw [if_neg (by simp [h])]
  by_cases hov :
      (c._has_overloaded_methods || o._has_overloaded_methods) = true
  · rw [if_pos hov, if_pos hov]
  · rw [if_neg hov, if_neg hov]
    have hov2 := Bool.eq_false_iff.mpr hov
    rcases Bool.or_eq_false_iff.mp hov2 with ⟨ho1, ho2⟩
    have hnod1 := (hasOverloaded_false_iff c).mp ho1
    have hnod2 := (hasOverloaded_false_iff o).mp ho2
    rw [methodsToDict_of_nodup c.methods hnod1,
      methodsToDict_of_nodup o.methods hnod2]
    simp only [List.map_map]
    rw [show (Prod.fst ∘ fun m : Method => (m.name, m)) =
      fun m : Method => m.name from rfl]
    simp only [lookup_map_pair]

/-- Witness for the C2 theorem: concrete contracts with distinct method
lists — one pair without overloading (per-name pairing with a left-only
and a right-only method), one pair with an overloaded left contract
(wholesale fallback). -/
theorem spec2proof_C2_witness :
    dGet (Contract.xor ⟨"C", [exAdd], Option.none, [], false⟩
        ⟨"C", [exSub], Option.none, [], false⟩) "methods" =
      methodsDiffSpec ⟨"C", [exAdd], Option.none, [], false⟩
        ⟨"C", [exSub], Option.none, [], false⟩ ∧
    dGet (Contract.xor ⟨"C", [exAdd, exAdd2], Option.none, [], false⟩
        ⟨"C", [exSub], Option.none, [], false⟩) "methods" =
      methodsDiffSpec ⟨"C", [exAdd, exAdd2], Option.none, [], false⟩
        ⟨"C", [exSub], Option.none, [], false⟩ :=
  ⟨spec2proof_C2_methods_entry ⟨"C", [exAdd], Option.none, [], false⟩
      ⟨"C", [exSub], Option.none, [], false⟩ (by decide),
   spec2proof_C2_methods_entry
      ⟨"C", [exAdd, exAdd2], Option.none, [], false⟩
      ⟨"C", [exSub], Option.none, [], false⟩ (by decide)⟩
